import Mathlib

/-!
# Verification of the py_agata CGM metric core

A shallow embedding of the py_agata repository's glucose-analysis core.
The repository's `src` tree contains the orchestrator
(`py_agata/py_agata.py`, class `Agata`) and the unit test of the
paired-series comparator (`py_agata/error/tests/test_g_rmse.py`); the
bodies of the individual metric functions (`g_rmse`, the event finders,
`mage_*`, `conga`, ...) are not part of the visible tree, so those
components are modelled from the specification, as marked in the
doc comment of each such definition.

Conventions:
* timestamps are minutes encoded as `Nat`;
* glucose values are `ℚ`; a missing sample carries `none`
  (the Python code uses `np.nan` as the missing marker);
* a statistic that the code reports as `np.nan` ("undefined, not enough
  data") is modelled as `none : Option ℚ`.
-/

namespace PyAgata

/-- A sample is a timestamp (minutes) paired with a glucose value;
`none` is the missing-value marker. -/
abbrev Sample : Type := Nat × Option ℚ

/-- Computable check that consecutive timestamps strictly increase. -/
def keysSorted : List Sample → Bool
  | [] => true
  | [_] => true
  | a :: b :: rest => a.1 < b.1 && keysSorted (b :: rest)

/-- A glucose trace: samples with strictly increasing timestamps.
The strict order is the Trace invariant stated by the data model
("timestamps are unique and sorted ascending"). -/
structure Trace where
  samples : List Sample
  sorted : keysSorted samples = true

/-- Exact-match lookup of the sample value stored at timestamp `t`
(no interpolation); `none` when no sample has that timestamp. -/
def lookup (tr : Trace) (t : Nat) : Option (Option ℚ) :=
  (tr.samples.find? (fun s => s.1 == t)).map Prod.snd

/-- The present (non-missing) value of `tr` at timestamp `t`:
`some v` when a sample exists at `t` and is non-missing. -/
def pval (tr : Trace) (t : Nat) : Option ℚ :=
  match lookup tr t with
  | some (some v) => some v
  | _ => none

/-- Modelled from the spec: the alignment step of the Paired-Series
Comparator (`py_agata.error.g_rmse`, whose body is absent from `src`).
For each sample of the reference trace whose timestamp also carries a
non-missing value in the candidate trace, the pair of values is kept;
every other timestamp is dropped. -/
def validPairs (a b : Trace) : List (ℚ × ℚ) :=
  a.samples.filterMap (fun s =>
    match s.2, pval b s.1 with
    | some v, some w => some (v, w)
    | _, _ => none)

/-- Modelled from the spec: the Paired-Series Comparator
(`py_agata.error.g_rmse`, absent from `src`), at the level of the mean
squared error.  The code's scalar is the square root of this value;
`Real.sqrt` is strictly monotone and fixes `0`, so definedness,
symmetry and the zero/undefined facts proved below transfer verbatim
to the root-mean-square statistic.  When no valid pair remains the
comparator reports the undefined value (`np.nan` in the code, `none`
here), never zero. -/
def g_rmse_sq (a b : Trace) : Option ℚ :=
  let ps := validPairs a b
  if ps.length = 0 then none
  else some (((ps.map (fun p => (p.1 - p.2) ^ 2)).sum) / (ps.length : ℚ))

/-- Modelled from the spec: the pairing step of the Lag Variability
Engine (`py_agata.variability.conga` / `modd`, absent from `src`).
For every sample whose timestamp has an exact `+L` counterpart that is
present in the trace and non-missing (and which is itself non-missing),
the difference `value (t+L) - value t` is kept; samples without such a
counterpart are excluded, not imputed. -/
def lagDiffs (L : Nat) (tr : Trace) : List ℚ :=
  tr.samples.filterMap (fun s =>
    match s.2, pval tr (s.1 + L) with
    | some v, some w => some (w - v)
    | _, _ => none)

/-- Sample variance (denominator `n - 1`) of a list of rationals;
the code's dispersion statistic is its square root, which fixes `0`
and preserves definedness, so the claims proved below transfer. -/
def sampleVar (l : List ℚ) : ℚ :=
  ((l.map (fun x => (x - l.sum / (l.length : ℚ)) ^ 2)).sum) / ((l.length : ℚ) - 1)

/-- Modelled from the spec: the Lag Variability Engine
(`py_agata.variability.conga`, absent from `src`), at the level of the
variance of the lag-`L` difference series.  Fewer than two valid
differences yield the undefined value, never zero. -/
def conga (L : Nat) (tr : Trace) : Option ℚ :=
  if (lagDiffs L tr).length < 2 then none
  else some (sampleVar (lagDiffs L tr))

/-- Modelled from the spec: `py_agata.variability.modd` (absent from
`src`), the day-to-day instance of the Lag Variability Engine: the lag
is one day (1440 minutes). -/
def modd (tr : Trace) : Option ℚ :=
  conga 1440 tr

/-- Splits a list of samples into the maximal runs of consecutive
present values; missing samples break a run and are discarded
(they are discontinuities, not turning points). `acc` is the current
run, accumulated in reverse. -/
def presentRunsAux (acc : List ℚ) : List Sample → List (List ℚ)
  | [] => if acc.isEmpty then [] else [acc.reverse]
  | (_, some v) :: rest => presentRunsAux (v :: acc) rest
  | (_, none) :: rest =>
    if acc.isEmpty then presentRunsAux [] rest
    else acc.reverse :: presentRunsAux [] rest

/-- The maximal present-value runs of a sample list. -/
def presentRuns (l : List Sample) : List (List ℚ) :=
  presentRunsAux [] l

/-- Modelled from the spec: interior turning points of one monotone-run
scan of the Excursion Analyzer (`py_agata.variability.mage_*`, absent
from `src`): a point is retained when the first difference strictly
changes sign there, i.e. the point is a strict local peak or a strict
local valley.  A strictly monotone run has no turning point. -/
def turningPoints : List ℚ → List ℚ
  | a :: b :: c :: rest =>
    (if (a < b && c < b) || (b < a && b < c) then [b] else []) ++ turningPoints (b :: c :: rest)
  | _ => []

/-- All turning points of a trace, run by run (missing samples break
runs and never count as turning points). -/
def traceTPs (tr : Trace) : List ℚ :=
  ((presentRuns tr.samples).map turningPoints).flatten

/-- Modelled from the spec: one fuel-indexed unfolding of the turning
point merge step of the Excursion Analyzer.  While two consecutive
retained turning points differ by less than the noise threshold `th`,
the pair is a noise oscillation: the later point is discarded and the
run is re-evaluated from the surviving point.  The fuel equals the
list length at the top-level call, which is always sufficient. -/
def mergeTPsAux (th : ℚ) : Nat → List ℚ → List ℚ
  | 0, l => l
  | _ + 1, [] => []
  | _ + 1, [a] => [a]
  | n + 1, a :: b :: rest =>
    if |b - a| < th then mergeTPsAux th n (a :: rest)
    else a :: mergeTPsAux th n (b :: rest)

/-- The turning-point merge step: noise-level oscillations (amplitude
below `th`) are merged away until every adjacent pair of retained
turning points is at least `th` apart. -/
def mergeTPs (th : ℚ) (l : List ℚ) : List ℚ :=
  mergeTPsAux th l.length l

/-- Modelled from the spec: the combined excursion-amplitude index of
the Excursion Analyzer (`py_agata.variability.mage_index`, absent from
`src`).  Turning points are detected, merged under the noise threshold
`th`, and the mean of the adjacent amplitudes exceeding the threshold
is reported; with fewer than two retained turning points no complete
excursion exists and the undefined value is reported, never zero. -/
def mage_index (th : ℚ) (tr : Trace) : Option ℚ :=
  let tps := mergeTPs th (traceTPs tr)
  if tps.length < 2 then none
  else
    let amps := ((tps.zip tps.tail).map (fun p => |p.2 - p.1|)).filter (fun x => th ≤ x)
    if amps.length = 0 then none
    else some (amps.sum / (amps.length : ℚ))

/-- Whether a sample value is present and inside the out-of-target band
tested by an event kind; a missing sample is never out of band
(it is treated as in-band for gap accounting and never opens an event). -/
def isOut (band : ℚ → Bool) : Option ℚ → Bool
  | some v => band v
  | none => false

/-- Modelled from the spec: the left-to-right scan of the Event
Detector (`py_agata.inspection.find_*_events`, absent from `src`)
that collects the maximal runs of out-of-band samples.  `cur` is the
open run `(start, last out-of-band timestamp)`, if any; an in-band or
missing sample closes the open run, and a run open at trace end closes
at the last in-trace timestamp, never extrapolated. -/
def outRunsAux (band : ℚ → Bool) : Option (Nat × Nat) → List Sample → List (Nat × Nat)
  | none, [] => []
  | some r, [] => [r]
  | none, (t, v) :: rest =>
    if isOut band v then outRunsAux band (some (t, t)) rest
    else outRunsAux band none rest
  | some (s, e), (t, v) :: rest =>
    if isOut band v then outRunsAux band (some (s, t)) rest
    else (s, e) :: outRunsAux band none rest

/-- The maximal out-of-band runs of a sample list, as
`(start, end)` timestamp intervals. -/
def outRuns (band : ℚ → Bool) (l : List Sample) : List (Nat × Nat) :=
  outRunsAux band none l

/-- Modelled from the spec: the fuel-indexed gap-bridging pass of the
Event Detector.  Two consecutive out-of-band runs separated by an
in-band interval of at most the gap tolerance `G` are one event: the
gap is absorbed, not reported as a break.  The fuel equals the list
length at the top-level call, which is always sufficient. -/
def mergeRunsAux (G : Nat) : Nat → List (Nat × Nat) → List (Nat × Nat)
  | 0, l => l
  | _ + 1, [] => []
  | _ + 1, [r] => [r]
  | n + 1, (s1, e1) :: (s2, e2) :: rest =>
    if s2 - e1 ≤ G then mergeRunsAux G n ((s1, e2) :: rest)
    else (s1, e1) :: mergeRunsAux G n ((s2, e2) :: rest)

/-- The gap-bridging pass over a run list. -/
def mergeRuns (G : Nat) (l : List (Nat × Nat)) : List (Nat × Nat) :=
  mergeRunsAux G l.length l

/-- Duration of an event interval (end minus start, in minutes). -/
def dur (r : Nat × Nat) : Nat := r.2 - r.1

/-- Modelled from the spec: the Event Detector for one event kind.
Out-of-band runs are collected, gaps of at most the tolerance `G` are
bridged, and only episodes meeting the minimum duration `D` become
events, emitted in scan order. -/
def detectEvents (band : ℚ → Bool) (D G : Nat) (tr : Trace) : List (Nat × Nat) :=
  (mergeRuns G (outRuns band tr.samples)).filter (fun r => D ≤ dur r)

/-- Modelled from the spec: ordinary hypoglycemic event detection
(`py_agata.inspection.find_hypoglycemic_events`, absent from `src`),
before level subdivision: values below the 70 mg/dL alert threshold,
minimum duration 15 minutes, gap tolerance 15 minutes (the spec's
documented common defaults). -/
def find_hypoglycemic_events (tr : Trace) : List (Nat × Nat) :=
  detectEvents (fun v => v < 70) 15 15 tr

/-- Modelled from the spec: hyperglycemic event detection
(`py_agata.inspection.find_hyperglycemic_events`, absent from `src`):
values above 180 mg/dL, minimum duration 15 minutes, gap tolerance
15 minutes. -/
def find_hyperglycemic_events (tr : Trace) : List (Nat × Nat) :=
  detectEvents (fun v => 180 < v) 15 15 tr

/-- Modelled from the spec: extended hypoglycemia detection
(`py_agata.inspection.find_extended_hypoglycemic_events`, absent from
`src`).  Per the spec it differs from the ordinary hypoglycemic
detector only in the longer 120-minute minimum duration and in having
no level subdivision; notably (and as the `src` call site
`find_extended_hypoglycemic_events(self.data)` confirms) it takes no
glycemic-target parameter. -/
def find_extended_hypoglycemic_events (tr : Trace) : List (Nat × Nat) :=
  detectEvents (fun v => v < 70) 120 15 tr

/-! ## The orchestrator (`Agata.analyze_glucose_profile`)

The method body in `src/py_agata/py_agata.py` is a straight-line
sequence of dictionary assignments.  It is embedded as a list of
statements over a state holding the instance attributes (`self.data`,
`self.glycemic_target`) and the `results` dictionary under
construction; the statement language can also assign the instance
attributes, so that the frame property "the method leaves them
unchanged" is a fact about this particular body, not about the
statement type. The out-of-scope metric collaborators are abstract
interpretations `I1` (called as `f(self.data)`) and `I2` (called as
`f(self.data, self.glycemic_target)`), exactly mirroring which
argument lists the source passes. -/

/-- A Python value appearing in the `results` dictionary: a scalar
metric (possibly undefined), an event list, or a nested dictionary. -/
inductive PyVal where
  | scalar (v : Option ℚ)
  | events (evs : List (Nat × Nat))
  | dict (entries : List (String × PyVal))

/-- Whether a value is a dictionary. -/
def PyVal.isDict : PyVal → Bool
  | .dict _ => true
  | _ => false

/-- The `Agata` instance attributes set by `__init__`. -/
structure AgataState where
  data : Trace
  glycemic_target : String

/-- A right-hand side of the method body: a metric call receiving
`self.data`, or one receiving `self.data` and `self.glycemic_target`. -/
inductive MetricCall where
  | unary (name : String)
  | withTarget (name : String)

/-- A statement of the embedded method body. -/
inductive Stmt where
  | initGroup (g : String)
  | setMetric (g k : String) (e : MetricCall)
  | setData (tr : Trace)
  | setTarget (s : String)

/-- The interpreter state: the instance and the `results` dictionary. -/
structure RunState where
  self : AgataState
  results : List (String × PyVal)

/-- Evaluates a metric call against abstract collaborator
interpretations `I1`/`I2` and the current instance attributes. -/
def evalCall (I1 : String → Trace → PyVal) (I2 : String → Trace → String → PyVal)
    (s : AgataState) : MetricCall → PyVal
  | .unary n => I1 n s.data
  | .withTarget n => I2 n s.data s.glycemic_target

/-- `results[g][k] = v`: appends the binding `k ↦ v` to the nested
dictionary stored under the top-level key `g`. -/
def setGroup (g k : String) (v : PyVal) : List (String × PyVal) → List (String × PyVal)
  | [] => []
  | (g2, val) :: rest =>
    if g2 = g then
      (g2, match val with
           | .dict es => .dict (es ++ [(k, v)])
           | other => other) :: rest
    else (g2, val) :: setGroup g k v rest

/-- One interpreter step. -/
def stepStmt (I1 : String → Trace → PyVal) (I2 : String → Trace → String → PyVal)
    (st : RunState) : Stmt → RunState
  | .initGroup g => { st with results := st.results ++ [(g, .dict [])] }
  | .setMetric g k e => { st with results := setGroup g k (evalCall I1 I2 st.self e) st.results }
  | .setData tr => { st with self := { st.self with data := tr } }
  | .setTarget s => { st with self := { st.self with glycemic_target := s } }

/-- Runs a statement list left to right. -/
def runStmts (I1 : String → Trace → PyVal) (I2 : String → Trace → String → PyVal)
    (l : List Stmt) (st : RunState) : RunState :=
  l.foldl (stepStmt I1 I2) st

/-- The body of `Agata.analyze_glucose_profile`, statement by statement
in source order (`src/py_agata/py_agata.py`, lines 71-135). -/
def analyzeBody : List Stmt :=
  [ .initGroup "variability"
  , .setMetric "variability" "mean_glucose" (.unary "mean_glucose")
  , .setMetric "variability" "median_glucose" (.unary "median_glucose")
  , .setMetric "variability" "std_glucose" (.unary "std_glucose")
  , .setMetric "variability" "cv_glucose" (.unary "cv_glucose")
  , .setMetric "variability" "range_glucose" (.unary "range_glucose")
  , .setMetric "variability" "iqr_glucose" (.unary "iqr_glucose")
  , .setMetric "variability" "auc_glucose" (.unary "auc_glucose")
  , .setMetric "variability" "gmi" (.unary "gmi")
  , .setMetric "variability" "cogi" (.unary "cogi")
  , .setMetric "variability" "conga" (.unary "conga")
  , .setMetric "variability" "j_index" (.unary "j_index")
  , .setMetric "variability" "mage_plus_index" (.unary "mage_plus_index")
  , .setMetric "variability" "mage_minus_index" (.unary "mage_minus_index")
  , .setMetric "variability" "mage_index" (.unary "mage_index")
  , .setMetric "variability" "ef_index" (.unary "ef_index")
  , .setMetric "variability" "modd" (.unary "modd")
  , .setMetric "variability" "sddm_index" (.unary "sddm_index")
  , .setMetric "variability" "sdw_index" (.unary "sdw_index")
  , .setMetric "variability" "std_glucose_roc" (.unary "std_glucose_roc")
  , .setMetric "variability" "cvga" (.unary "cvga")
  , .initGroup "time_in_ranges"
  , .setMetric "time_in_ranges" "time_in_target" (.withTarget "time_in_target")
  , .setMetric "time_in_ranges" "time_in_tight_target" (.withTarget "time_in_tight_target")
  , .setMetric "time_in_ranges" "time_in_hypoglycemia" (.withTarget "time_in_hypoglycemia")
  , .setMetric "time_in_ranges" "time_in_l1_hypoglycemia" (.withTarget "time_in_l1_hypoglycemia")
  , .setMetric "time_in_ranges" "time_in_l2_hypoglycemia" (.withTarget "time_in_l2_hypoglycemia")
  , .setMetric "time_in_ranges" "time_in_hyperglycemia" (.withTarget "time_in_hyperglycemia")
  , .setMetric "time_in_ranges" "time_in_l1_hyperglycemia" (.withTarget "time_in_l1_hyperglycemia")
  , .setMetric "time_in_ranges" "time_in_l2_hyperglycemia" (.withTarget "time_in_l2_hyperglycemia")
  , .initGroup "risk"
  , .setMetric "risk" "adrr" (.unary "adrr")
  , .setMetric "risk" "lbgi" (.unary "lbgi")
  , .setMetric "risk" "hbgi" (.unary "hbgi")
  , .setMetric "risk" "bgri" (.unary "bgri")
  , .setMetric "risk" "gri" (.unary "gri")
  , .initGroup "glycemic_transformation"
  , .setMetric "glycemic_transformation" "grade_score" (.unary "grade_score")
  , .setMetric "glycemic_transformation" "grade_hypo_score" (.unary "grade_hypo_score")
  , .setMetric "glycemic_transformation" "grade_hyper_score" (.unary "grade_hyper_score")
  , .setMetric "glycemic_transformation" "grade_eu_score" (.unary "grade_eu_score")
  , .setMetric "glycemic_transformation" "igc" (.unary "igc")
  , .setMetric "glycemic_transformation" "hypo_index" (.unary "hypo_index")
  , .setMetric "glycemic_transformation" "hyper_index" (.unary "hyper_index")
  , .setMetric "glycemic_transformation" "mr_index" (.unary "mr_index")
  , .initGroup "events"
  , .setMetric "events" "hypoglycemic_events" (.withTarget "find_hypoglycemic_events_by_level")
  , .setMetric "events" "hyperglycemic_events" (.withTarget "find_hyperglycemic_events_by_level")
  , .setMetric "events" "extended_hypoglycemic_events" (.unary "find_extended_hypoglycemic_events")
  , .initGroup "data_quality"
  , .setMetric "data_quality" "number_days_of_observation" (.unary "number_days_of_observation")
  , .setMetric "data_quality" "missing_glucose_percentage" (.unary "missing_glucose_percentage")
  ]

/-- The embedded `Agata.analyze_glucose_profile`: runs the body from a
fresh empty `results` dictionary over the given instance. -/
def analyze_glucose_profile (I1 : String → Trace → PyVal)
    (I2 : String → Trace → String → PyVal) (self : AgataState) : RunState :=
  runStmts I1 I2 analyzeBody { self := self, results := [] }

/-! ## Basic facts about the Trace invariant and lookups -/

theorem keysSorted_pairwise :
    ∀ {l : List Sample}, keysSorted l = true →
      List.Pairwise (fun a b : Sample => a.1 < b.1) l
  | [], _ => List.Pairwise.nil
  | [a], _ => List.pairwise_singleton _ a
  | a :: b :: rest, h => by
    have h' : a.1 < b.1 ∧ keysSorted (b :: rest) = true := by
      simpa [keysSorted, Bool.and_eq_true, decide_eq_true_eq] using h
    have ih := keysSorted_pairwise h'.2
    refine List.pairwise_cons.mpr ⟨?_, ih⟩
    intro x hx
    rcases List.mem_cons.mp hx with hx | hx
    · exact hx ▸ h'.1
    · exact h'.1.trans (List.rel_of_pairwise_cons ih hx)

theorem sorted_pairwise (tr : Trace) :
    List.Pairwise (fun a b : Sample => a.1 < b.1) tr.samples :=
  keysSorted_pairwise tr.sorted

theorem find?_key_self {l : List Sample}
    (hl : List.Pairwise (fun a b : Sample => a.1 < b.1) l)
    {t : Nat} {v : Option ℚ} (h : (t, v) ∈ l) :
    l.find? (fun s => s.1 == t) = some (t, v) := by
  induction l with
  | nil => cases h
  | cons hd tl ih =>
    rcases List.mem_cons.mp h with h | h
    · subst h
      simp [List.find?_cons]
    · have hlt : hd.1 < t := List.rel_of_pairwise_cons hl h
      have hne : (hd.1 == t) = false := by
        simp [Nat.ne_of_lt hlt]
      rw [List.find?_cons, hne]
      exact ih (List.Pairwise.of_cons hl) h

theorem lookup_eq (tr : Trace) {t : Nat} {v : Option ℚ}
    (h : (t, v) ∈ tr.samples) : lookup tr t = some v := by
  unfold lookup
  rw [find?_key_self (sorted_pairwise tr) h]
  rfl

theorem pval_eq (tr : Trace) {t : Nat} {v : Option ℚ}
    (h : (t, v) ∈ tr.samples) : pval tr t = v := by
  unfold pval
  rw [lookup_eq tr h]
  cases v <;> rfl

theorem pval_some_mem {tr : Trace} {t : Nat} {w : ℚ}
    (h : pval tr t = some w) : (t, some w) ∈ tr.samples := by
  unfold pval at h
  rcases hl : lookup tr t with _ | ov
  · rw [hl] at h; cases h
  · rw [hl] at h
    unfold lookup at hl
    rcases hf : tr.samples.find? (fun s => s.1 == t) with _ | p
    · rw [hf] at hl; cases hl
    · rw [hf] at hl
      have hp := List.find?_some hf
      have hmem := List.mem_of_find?_eq_some hf
      have ht : p.1 = t := by simpa using hp
      have hv : p.2 = ov := by
        simpa using hl
      cases ov with
      | none => cases h
      | some w2 =>
        cases h
        have : p = (t, some w) := by
          cases p
          simp_all
        rwa [this] at hmem

/-! ## C2: undefined results on insufficient data -/

/-- **C2**: whenever there is insufficient data to compute a statistic
— for the Paired-Series Comparator, when the set of shared timestamps
where both values are non-missing is empty (including when either
input Trace is empty); for the Excursion Analyzer, when fewer than two
turning points remain after merging; for the Lag Variability Engine,
when fewer than two valid differences exist — the operation returns
the distinguished undefined value (`none`, the model of `np.nan`),
never zero and (being a total function) never a raised exception. -/
theorem c2_undefined_on_insufficient_data (a b tr1 tr2 : Trace) (th : ℚ) (L : Nat) :
    (validPairs a b = [] → g_rmse_sq a b = none) ∧
    (a.samples = [] ∨ b.samples = [] → g_rmse_sq a b = none) ∧
    ((mergeTPs th (traceTPs tr1)).length < 2 → mage_index th tr1 = none) ∧
    ((lagDiffs L tr2).length < 2 → conga L tr2 = none) := by
  refine ⟨?_, ?_, ?_, ?_⟩
  · intro h
    simp [g_rmse_sq, h]
  · intro h
    have hvp : validPairs a b = [] := by
      rcases h with h | h
      · simp [validPairs, h]
      · refine List.filterMap_eq_nil_iff.mpr ?_
        intro s _
        have hb : pval b s.1 = none := by
          unfold pval lookup
          rw [h]
          rfl
        rcases s.2 with _ | v <;> simp [hb]
    simp [g_rmse_sq, hvp]
  · intro h
    simp only [mage_index]
    rw [if_pos h]
  · intro h
    simp only [conga]
    rw [if_pos h]

theorem c2_undefined_witness :
    g_rmse_sq ⟨[(0, some 120)], rfl⟩ ⟨[(0, none)], rfl⟩ = none ∧
    g_rmse_sq ⟨[], rfl⟩ ⟨[], rfl⟩ = none ∧
    mage_index 1 ⟨[(0, some 1), (5, some 2), (10, some 3)], by decide⟩ = none ∧
    conga 5 ⟨[(0, some 7), (7, some 9)], by decide⟩ = none :=
  ⟨(c2_undefined_on_insufficient_data ⟨[(0, some 120)], rfl⟩ ⟨[(0, none)], rfl⟩
      ⟨[(0, some 1), (5, some 2), (10, some 3)], by decide⟩
      ⟨[(0, some 7), (7, some 9)], by decide⟩ 1 5).1 (by decide),
   (c2_undefined_on_insufficient_data ⟨[], rfl⟩ ⟨[], rfl⟩
      ⟨[(0, some 1), (5, some 2), (10, some 3)], by decide⟩
      ⟨[(0, some 7), (7, some 9)], by decide⟩ 1 5).2.1 (Or.inl rfl),
   (c2_undefined_on_insufficient_data ⟨[], rfl⟩ ⟨[], rfl⟩
      ⟨[(0, some 1), (5, some 2), (10, some 3)], by decide⟩
      ⟨[(0, some 7), (7, some 9)], by decide⟩ 1 5).2.2.1 (by decide),
   (c2_undefined_on_insufficient_data ⟨[], rfl⟩ ⟨[], rfl⟩
      ⟨[(0, some 1), (5, some 2), (10, some 3)], by decide⟩
      ⟨[(0, some 7), (7, some 9)], by decide⟩ 1 5).2.2.2 (by decide)⟩

/-! ## C8: the turning-point merge step is idempotent -/

theorem mergeTPsAux_head (th : ℚ) :
    ∀ (n : Nat) (x : ℚ) (xs : List ℚ),
      ∃ ys, mergeTPsAux th n (x :: xs) = x :: ys := by
  intro n
  induction n with
  | zero => intro x xs; exact ⟨xs, rfl⟩
  | succ n ih =>
    intro x xs
    cases xs with
    | nil => exact ⟨[], rfl⟩
    | cons b rest =>
      by_cases h : |b - x| < th
      · obtain ⟨ys, hys⟩ := ih x rest
        exact ⟨ys, by simp [mergeTPsAux, h, hys]⟩
      · obtain ⟨ys, hys⟩ := ih b rest
        exact ⟨mergeTPsAux th n (b :: rest), by simp [mergeTPsAux, h]⟩

theorem mergeTPsAux_chain (th : ℚ) :
    ∀ (n : Nat) (l : List ℚ), l.length ≤ n →
      List.Chain' (fun u v => th ≤ |v - u|) (mergeTPsAux th n l) := by
  intro n
  induction n with
  | zero =>
    intro l hl
    have : l = [] := List.length_eq_zero.mp (Nat.le_zero.mp hl)
    simp [this, mergeTPsAux]
  | succ n ih =>
    intro l hl
    match l with
    | [] => simp [mergeTPsAux]
    | [a] => simp [mergeTPsAux]
    | a :: b :: rest =>
      by_cases h : |b - a| < th
      · have hlen : (a :: rest).length ≤ n := by
          simpa using Nat.le_of_succ_le_succ (by simpa using hl)
        simpa [mergeTPsAux, h] using ih (a :: rest) hlen
      · have hlen : (b :: rest).length ≤ n := by
          simpa using Nat.le_of_succ_le_succ (by simpa using hl)
        obtain ⟨ys, hys⟩ := mergeTPsAux_head th n b rest
        have hchain := ih (b :: rest) hlen
        rw [hys] at hchain
        simp only [mergeTPsAux, h, if_neg, ite_false, hys]
        exact List.Chain'.cons (not_lt.mp h) hchain

theorem mergeTPsAux_fixed (th : ℚ) :
    ∀ (n : Nat) (l : List ℚ),
      List.Chain' (fun u v => th ≤ |v - u|) l → mergeTPsAux th n l = l := by
  intro n
  induction n with
  | zero => intro l _; rfl
  | succ n ih =>
    intro l hl
    match l with
    | [] => rfl
    | [a] => rfl
    | a :: b :: rest =>
      have hab : th ≤ |b - a| := (List.chain'_cons.mp hl).1
      have h : ¬ |b - a| < th := not_lt.mpr hab
      simp [mergeTPsAux, h, ih (b :: rest) (List.Chain'.tail hl)]

theorem mergeTPs_chain (th : ℚ) (l : List ℚ) :
    List.Chain' (fun u v => th ≤ |v - u|) (mergeTPs th l) :=
  mergeTPsAux_chain th l.length l le_rfl

theorem mergeTPs_fixpoint (th : ℚ) (l : List ℚ) :
    mergeTPs th (mergeTPs th l) = mergeTPs th l :=
  mergeTPsAux_fixed th (mergeTPs th l).length (mergeTPs th l) (mergeTPs_chain th l)

/-- **C8**: the Excursion Analyzer's turning-point merge step is
idempotent: for every Trace and every noise threshold, applying the
merge step to its own output yields the very same retained turning
points as applying it once. -/
theorem c8_merge_idempotent (th : ℚ) (tr : Trace) :
    mergeTPs th (mergeTPs th (traceTPs tr)) = mergeTPs th (traceTPs tr) :=
  mergeTPs_fixpoint th (traceTPs tr)

/-! ## C4: comparing a trace with itself -/

theorem validPairs_self_eq (a : Trace) :
    ∀ p ∈ validPairs a a, p.1 = p.2 := by
  intro p hp
  obtain ⟨s, hs, hm⟩ := List.mem_filterMap.mp hp
  rcases hv : s.2 with _ | v
  · rw [hv] at hm; cases hm
  · have hmem : (s.1, some v) ∈ a.samples := by
      have : s = (s.1, some v) := by
        cases s; simp_all
      rwa [this] at hs
    have hpv : pval a s.1 = some v := pval_eq a hmem
    rw [hv, hpv] at hm
    cases hm
    rfl

theorem validPairs_self_mem (a : Trace) {t : Nat} {v : ℚ}
    (h : (t, some v) ∈ a.samples) : (v, v) ∈ validPairs a a :=
  List.mem_filterMap.mpr ⟨(t, some v), h, by rw [show pval a t = some v from pval_eq a h]⟩

/-- **C4**: for every Trace with at least one non-missing sample the
Paired-Series Comparator applied to the trace and itself returns
exactly `0`; for an empty or all-missing Trace it returns the
undefined value.  (Stated on the squared statistic `g_rmse_sq`;
the code's root-mean-square is its square root, and `sqrt 0 = 0`.) -/
theorem c4_self_compare (a : Trace) :
    ((∃ s ∈ a.samples, s.2.isSome = true) → g_rmse_sq a a = some 0) ∧
    ((∀ s ∈ a.samples, s.2 = none) → g_rmse_sq a a = none) := by
  constructor
  · rintro ⟨s, hs, hsome⟩
    rcases hv : s.2 with _ | v
    · rw [hv] at hsome; cases hsome
    · have hmem : (s.1, some v) ∈ a.samples := by
        have : s = (s.1, some v) := by cases s; simp_all
        rwa [this] at hs
      have hne : validPairs a a ≠ [] := by
        intro hnil
        have := validPairs_self_mem a hmem
        rw [hnil] at this
        cases this
      have hlen : ¬ (validPairs a a).length = 0 := by
        simpa [List.length_eq_zero] using hne
      have hsum : ((validPairs a a).map (fun p => (p.1 - p.2) ^ 2)).sum = 0 := by
        apply List.sum_eq_zero
        intro x hx
        obtain ⟨p, hp, hpx⟩ := List.mem_map.mp hx
        rw [← hpx, validPairs_self_eq a p hp]
        ring
      simp [g_rmse_sq, hlen, hsum]
  · intro h
    have hvp : validPairs a a = [] := by
      refine List.filterMap_eq_nil_iff.mpr ?_
      intro s hs
      rw [h s hs]
    simp [g_rmse_sq, hvp]

theorem c4_self_compare_witness :
    g_rmse_sq ⟨[(0, some 120)], rfl⟩ ⟨[(0, some 120)], rfl⟩ = some 0 ∧
    g_rmse_sq ⟨[(0, none)], rfl⟩ ⟨[(0, none)], rfl⟩ = none :=
  ⟨(c4_self_compare ⟨[(0, some 120)], rfl⟩).1 (by decide),
   (c4_self_compare ⟨[(0, none)], rfl⟩).2 (by decide)⟩

/-! ## C7: the Lag Variability Engine -/

theorem lagDiffs_const {L : Nat} {tr : Trace} {c : ℚ}
    (hc : ∀ s ∈ tr.samples, ∀ v, s.2 = some v → v = c) :
    ∀ x ∈ lagDiffs L tr, x = 0 := by
  intro x hx
  obtain ⟨s, hs, hm⟩ := List.mem_filterMap.mp hx
  rcases hv : s.2 with _ | v
  · rw [hv] at hm; cases hm
  · rcases hw : pval tr (s.1 + L) with _ | w
    · rw [hv, hw] at hm; cases hm
    · rw [hv, hw] at hm
      cases hm
      have hvc : v = c := hc s hs v hv
      have hwc : w = c := hc (s.1 + L, some w) (pval_some_mem hw) w rfl
      rw [hvc, hwc, sub_self]

theorem sampleVar_of_zeros {l : List ℚ} (h : ∀ x ∈ l, x = 0) :
    sampleVar l = 0 := by
  unfold sampleVar
  have hsum : l.sum = 0 := List.sum_eq_zero h
  have hsq : (l.map (fun x => (x - l.sum / (l.length : ℚ)) ^ 2)).sum = 0 := by
    apply List.sum_eq_zero
    intro y hy
    obtain ⟨x, hx, hxy⟩ := List.mem_map.mp hy
    rw [← hxy, h x hx, hsum]
    simp
  rw [hsq, zero_div]

/-- **C7**: the Lag Variability Engine at any configured lag `L`:
a constant-valued Trace with at least two valid lag-`L` differences
yields exactly zero; every retained difference arises from a sample
and an exactly-`+L`-displaced sample that are both present (samples
without such a counterpart are excluded, never imputed); and a Trace
with fewer than two valid differences (in particular with no pair at
lag `L`) yields the undefined value.  (Stated on the variance;
the code's standard deviation is its square root, which fixes `0`
and preserves definedness.) -/
theorem c7_lag_variability (L : Nat) (tr : Trace) (c : ℚ) :
    ((∀ s ∈ tr.samples, ∀ v, s.2 = some v → v = c) →
       2 ≤ (lagDiffs L tr).length → conga L tr = some 0) ∧
    ((lagDiffs L tr).length < 2 → conga L tr = none) ∧
    (∀ d ∈ lagDiffs L tr, ∃ t v w, (t, some v) ∈ tr.samples ∧
       (t + L, some w) ∈ tr.samples ∧ d = w - v) := by
  refine ⟨?_, ?_, ?_⟩
  · intro hc hlen
    have hnot : ¬ (lagDiffs L tr).length < 2 := not_lt.mpr hlen
    simp only [conga]
    rw [if_neg hnot, sampleVar_of_zeros (lagDiffs_const hc)]
  · intro h
    simp only [conga]
    rw [if_pos h]
  · intro d hd
    obtain ⟨s, hs, hm⟩ := List.mem_filterMap.mp hd
    rcases hv : s.2 with _ | v
    · rw [hv] at hm; cases hm
    · rcases hw : pval tr (s.1 + L) with _ | w
      · rw [hv, hw] at hm; cases hm
      · rw [hv, hw] at hm
        cases hm
        refine ⟨s.1, v, w, ?_, pval_some_mem hw, rfl⟩
        have : s = (s.1, some v) := by cases s; simp_all
        rwa [this] at hs

theorem c7_lag_variability_witness :
    conga 5 ⟨[(0, some 7), (5, some 7), (10, some 7)], by decide⟩ = some 0 ∧
    conga 5 ⟨[(0, some 7), (7, some 9)], by decide⟩ = none ∧
    (∃ t v w, (t, some v) ∈
        (⟨[(0, some 7), (5, some 7), (10, some 7)], by decide⟩ : Trace).samples ∧
      (t + 5, some w) ∈
        (⟨[(0, some 7), (5, some 7), (10, some 7)], by decide⟩ : Trace).samples ∧
      ((7 : ℚ) - 7) = w - v) :=
  ⟨(c7_lag_variability 5 ⟨[(0, some 7), (5, some 7), (10, some 7)], by decide⟩ 7).1
      (by decide) (by decide),
   (c7_lag_variability 5 ⟨[(0, some 7), (7, some 9)], by decide⟩ 7).2.1 (by decide),
   (c7_lag_variability 5 ⟨[(0, some 7), (5, some 7), (10, some 7)], by decide⟩ 7).2.2
      ((7 : ℚ) - 7) (List.mem_cons_self _ _)⟩

/-! ## C6: extended hypoglycemia differs only in the minimum duration -/

/-- **C6**: extended-hypoglycemia detection is the ordinary
hypoglycemic event detection with the longer 120-minute minimum
duration and no level subdivision, and nothing else: its events are
exactly the ordinary hypoglycemic events of duration at least 120
minutes.  Neither side of the equation takes or mentions a
glycemic-target parameter (mirroring the `src` call
`find_extended_hypoglycemic_events(self.data)`), so the output cannot
depend on the glycemic target. -/
theorem c6_extended_hypo_duration_only (tr : Trace) :
    find_extended_hypoglycemic_events tr =
      (find_hypoglycemic_events tr).filter (fun r => 120 ≤ dur r) := by
  unfold find_extended_hypoglycemic_events find_hypoglycemic_events detectEvents
  rw [List.filter_filter]
  apply List.filter_congr
  intro r _
  by_cases h : 120 ≤ dur r
  · have h15 : 15 ≤ dur r := le_trans (by norm_num) h
    simp [h, h15]
  · simp [h]

/-! ## C5: invariants of the Event Detector -/

theorem outRunsAux_start_mem (band : ℚ → Bool) :
    ∀ (l : List Sample) (cur : Option (Nat × Nat)),
      ∀ r ∈ outRunsAux band cur l,
        (∃ s e, cur = some (s, e) ∧ r.1 = s) ∨ r.1 ∈ l.map Prod.fst := by
  intro l
  induction l with
  | nil =>
    intro cur r hr
    cases cur with
    | none => cases hr
    | some c =>
      rcases List.mem_singleton.mp hr with h
      exact Or.inl ⟨c.1, c.2, by simp, by rw [h]⟩
  | cons hd tl ih =>
    intro cur r hr
    obtain ⟨t, v⟩ := hd
    cases cur with
    | none =>
      by_cases hout : isOut band v = true
      · rw [show outRunsAux band none ((t, v) :: tl) = outRunsAux band (some (t, t)) tl
            from by simp [outRunsAux, hout]] at hr
        rcases ih (some (t, t)) r hr with ⟨s, e, hse, hrs⟩ | hmem
        · refine Or.inr ?_
          have hs : s = t := by cases hse; rfl
          simp [hrs, hs]
        · exact Or.inr (by simp [hmem])
      · rw [show outRunsAux band none ((t, v) :: tl) = outRunsAux band none tl
            from by simp [outRunsAux, hout]] at hr
        rcases ih none r hr with ⟨_, _, hse, _⟩ | hmem
        · cases hse
        · exact Or.inr (by simp [hmem])
    | some c =>
      obtain ⟨s, e⟩ := c
      by_cases hout : isOut band v = true
      · rw [show outRunsAux band (some (s, e)) ((t, v) :: tl) =
              outRunsAux band (some (s, t)) tl
            from by simp [outRunsAux, hout]] at hr
        rcases ih (some (s, t)) r hr with ⟨s2, e2, hse, hrs⟩ | hmem
        · have hs : s2 = s := by cases hse; rfl
          exact Or.inl ⟨s, e, rfl, by rw [hrs, hs]⟩
        · exact Or.inr (by simp [hmem])
      · rw [show outRunsAux band (some (s, e)) ((t, v) :: tl) =
              (s, e) :: outRunsAux band none tl
            from by simp [outRunsAux, hout]] at hr
        rcases List.mem_cons.mp hr with h | h
        · exact Or.inl ⟨s, e, rfl, by rw [h]⟩
        · rcases ih none r h with ⟨_, _, hse, _⟩ | hmem
          · cases hse
          · exact Or.inr (by simp [hmem])

theorem outRunsAux_pairwise_wf (band : ℚ → Bool) :
    ∀ (l : List Sample) (cur : Option (Nat × Nat)),
      List.Pairwise (fun a b : Sample => a.1 < b.1) l →
      (∀ s e, cur = some (s, e) → s ≤ e ∧ ∀ p ∈ l, e < p.1) →
      List.Pairwise (fun r1 r2 : Nat × Nat => r1.2 < r2.1) (outRunsAux band cur l) ∧
      ∀ r ∈ outRunsAux band cur l, r.1 ≤ r.2 := by
  intro l
  induction l with
  | nil =>
    intro cur hl hcur
    cases cur with
    | none => exact ⟨List.Pairwise.nil, by intro r hr; cases hr⟩
    | some c =>
      refine ⟨List.pairwise_singleton _ _, ?_⟩
      intro r hr
      rcases List.mem_singleton.mp hr with h
      rw [h]
      exact (hcur c.1 c.2 (by simp)).1
  | cons hd tl ih =>
    intro cur hl hcur
    obtain ⟨t, v⟩ := hd
    have hl1 : ∀ p ∈ tl, t < p.1 := fun p hp => List.rel_of_pairwise_cons hl hp
    have hl2 : List.Pairwise (fun a b : Sample => a.1 < b.1) tl :=
      List.Pairwise.of_cons hl
    cases cur with
    | none =>
      by_cases hout : isOut band v = true
      · rw [show outRunsAux band none ((t, v) :: tl) = outRunsAux band (some (t, t)) tl
            from by simp [outRunsAux, hout]]
        exact ih (some (t, t)) hl2 (by
          intro s e hse
          cases hse
          exact ⟨le_refl t, hl1⟩)
      · rw [show outRunsAux band none ((t, v) :: tl) = outRunsAux band none tl
            from by simp [outRunsAux, hout]]
        exact ih none hl2 (by intro s e hse; cases hse)
    | some c =>
      obtain ⟨s, e⟩ := c
      obtain ⟨hse, hebound⟩ := hcur s e rfl
      by_cases hout : isOut band v = true
      · rw [show outRunsAux band (some (s, e)) ((t, v) :: tl) =
              outRunsAux band (some (s, t)) tl
            from by simp [outRunsAux, hout]]
        exact ih (some (s, t)) hl2 (by
          intro s2 e2 hse2
          cases hse2
          exact ⟨le_of_lt (lt_of_le_of_lt hse (hebound (t, v) (by simp))), hl1⟩)
      · rw [show outRunsAux band (some (s, e)) ((t, v) :: tl) =
              (s, e) :: outRunsAux band none tl
            from by simp [outRunsAux, hout]]
        have hrec := ih none hl2 (by intro s2 e2 hse2; cases hse2)
        constructor
        · refine List.pairwise_cons.mpr ⟨?_, hrec.1⟩
          intro r hr
          rcases outRunsAux_start_mem band tl none r hr with ⟨_, _, hse2, _⟩ | hmem
          · cases hse2
          · obtain ⟨p, hp, hpr⟩ := List.mem_map.mp hmem
            rw [← hpr]
            exact hebound p (by simp [hp])
        · intro r hr
          rcases List.mem_cons.mp hr with h | h
          · rw [h]; exact hse
          · exact hrec.2 r h

theorem outRunsAux_nil_of_missing (band : ℚ → Bool) :
    ∀ (l : List Sample), (∀ p ∈ l, p.2 = none) →
      outRunsAux band none l = [] := by
  intro l
  induction l with
  | nil => intro _; rfl
  | cons hd tl ih =>
    intro h
    obtain ⟨t, v⟩ := hd
    have hv : v = none := h (t, v) (by simp)
    have hout : isOut band v = false := by rw [hv]; rfl
    rw [show outRunsAux band none ((t, v) :: tl) = outRunsAux band none tl
        from by simp [outRunsAux, hout]]
    exact ih (fun p hp => h p (by simp [hp]))

theorem outRunsAux_nil_of_inband (band : ℚ → Bool) :
    ∀ (l : List Sample), (∀ p ∈ l, ∀ v, p.2 = some v → band v = false) →
      outRunsAux band none l = [] := by
  intro l
  induction l with
  | nil => intro _; rfl
  | cons hd tl ih =>
    intro h
    obtain ⟨t, v⟩ := hd
    have hout : isOut band v = false := by
      cases v with
      | none => rfl
      | some x =>
        have := h (t, some x) (by simp) x rfl
        simpa [isOut] using this
    rw [show outRunsAux band none ((t, v) :: tl) = outRunsAux band none tl
        from by simp [outRunsAux, hout]]
    exact ih (fun p hp => h p (by simp [hp]))

theorem mergeRunsAux_head (G : Nat) :
    ∀ (n : Nat) (s e : Nat) (xs : List (Nat × Nat)),
      ∃ e2 ys, mergeRunsAux G n ((s, e) :: xs) = (s, e2) :: ys := by
  intro n
  induction n with
  | zero => intro s e xs; exact ⟨e, xs, rfl⟩
  | succ n ih =>
    intro s e xs
    cases xs with
    | nil => exact ⟨e, [], rfl⟩
    | cons r2 rest =>
      obtain ⟨s2, e2⟩ := r2
      by_cases h : s2 - e ≤ G
      · obtain ⟨e3, ys, hys⟩ := ih s e2 rest
        exact ⟨e3, ys, by simp [mergeRunsAux, h, hys]⟩
      · exact ⟨e, mergeRunsAux G n ((s2, e2) :: rest), by simp [mergeRunsAux, h]⟩

theorem mergeRunsAux_chain_wf (G : Nat) :
    ∀ (n : Nat) (l : List (Nat × Nat)),
      List.Chain' (fun r1 r2 : Nat × Nat => r1.2 < r2.1) l →
      (∀ r ∈ l, r.1 ≤ r.2) →
      List.Chain' (fun r1 r2 : Nat × Nat => r1.2 < r2.1) (mergeRunsAux G n l) ∧
      ∀ r ∈ mergeRunsAux G n l, r.1 ≤ r.2 := by
  intro n
  induction n with
  | zero => intro l hc hwf; exact ⟨hc, hwf⟩
  | succ n ih =>
    intro l hc hwf
    match l with
    | [] => exact ⟨List.chain'_nil, by intro r hr; cases hr⟩
    | [r] =>
      exact ⟨List.chain'_singleton r, by
        intro x hx
        rcases List.mem_singleton.mp hx with h
        rw [h]
        exact hwf r (by simp)⟩
    | (s1, e1) :: (s2, e2) :: rest =>
      have h12 : e1 < s2 := (List.chain'_cons.mp hc).1
      have hc2 : List.Chain' (fun r1 r2 : Nat × Nat => r1.2 < r2.1) ((s2, e2) :: rest) :=
        (List.chain'_cons.mp hc).2
      by_cases h : s2 - e1 ≤ G
      · have hc' : List.Chain' (fun r1 r2 : Nat × Nat => r1.2 < r2.1) ((s1, e2) :: rest) := by
          rcases List.chain'_cons'.mp hc2 with ⟨hhead, htail⟩
          exact List.chain'_cons'.mpr ⟨hhead, htail⟩
        have hwf' : ∀ r ∈ (s1, e2) :: rest, r.1 ≤ r.2 := by
          intro r hr
          rcases List.mem_cons.mp hr with hr | hr
          · rw [hr]
            exact le_trans (hwf (s1, e1) (by simp))
              (le_trans (le_of_lt h12) (hwf (s2, e2) (by simp)))
          · exact hwf r (by simp [hr])
        rw [show mergeRunsAux G (n + 1) ((s1, e1) :: (s2, e2) :: rest) =
              mergeRunsAux G n ((s1, e2) :: rest)
            from by simp [mergeRunsAux, h]]
        exact ih ((s1, e2) :: rest) hc' hwf'
      · have hrec := ih ((s2, e2) :: rest) hc2 (by
          intro r hr
          exact hwf r (by simp [List.mem_cons.mp hr]))
        rw [show mergeRunsAux G (n + 1) ((s1, e1) :: (s2, e2) :: rest) =
              (s1, e1) :: mergeRunsAux G n ((s2, e2) :: rest)
            from by simp [mergeRunsAux, h]]
        constructor
        · obtain ⟨e3, ys, hys⟩ := mergeRunsAux_head G n s2 e2 rest
          rw [hys]
          rw [hys] at hrec
          exact List.chain'_cons.mpr ⟨h12, hrec.1⟩
        · intro r hr
          rcases List.mem_cons.mp hr with hr | hr
          · rw [hr]
            exact hwf (s1, e1) (by simp)
          · exact hrec.2 r hr

theorem chain_wf_bound :
    ∀ (l : List (Nat × Nat)) (r : Nat × Nat),
      List.Chain' (fun r1 r2 : Nat × Nat => r1.2 < r2.1) (r :: l) →
      (∀ x ∈ r :: l, x.1 ≤ x.2) →
      ∀ x ∈ l, r.2 < x.1 := by
  intro l
  induction l with
  | nil => intro r _ _ x hx; cases hx
  | cons r2 tl ih =>
    intro r hc hwf x hx
    have h12 : r.2 < r2.1 := (List.chain'_cons.mp hc).1
    rcases List.mem_cons.mp hx with hx | hx
    · rw [hx]; exact h12
    · have := ih r2 (List.chain'_cons.mp hc).2 (by
        intro y hy
        exact hwf y (by simp [List.mem_cons.mp hy])) x hx
      exact lt_trans (lt_of_lt_of_le h12 (hwf r2 (by simp))) this

theorem chain_wf_pairwise :
    ∀ (l : List (Nat × Nat)),
      List.Chain' (fun r1 r2 : Nat × Nat => r1.2 < r2.1) l →
      (∀ r ∈ l, r.1 ≤ r.2) →
      List.Pairwise (fun r1 r2 : Nat × Nat => r1.2 < r2.1) l := by
  intro l
  induction l with
  | nil => intro _ _; exact List.Pairwise.nil
  | cons r tl ih =>
    intro hc hwf
    refine List.pairwise_cons.mpr ⟨chain_wf_bound tl r hc hwf, ?_⟩
    exact ih (List.Chain'.tail hc)
      (fun x hx => hwf x (by simp [hx]))

theorem detectEvents_pairwise_wf (band : ℚ → Bool) (D G : Nat) (tr : Trace) :
    List.Pairwise (fun r1 r2 : Nat × Nat => r1.2 < r2.1) (detectEvents band D G tr) ∧
    ∀ r ∈ detectEvents band D G tr, r.1 ≤ r.2 := by
  have houts := outRunsAux_pairwise_wf band tr.samples none (sorted_pairwise tr)
    (by intro s e hse; cases hse)
  have hchain : List.Chain' (fun r1 r2 : Nat × Nat => r1.2 < r2.1)
      (outRuns band tr.samples) := houts.1.chain'
  have hm := mergeRunsAux_chain_wf G (outRuns band tr.samples).length
    (outRuns band tr.samples) hchain houts.2
  have hpw : List.Pairwise (fun r1 r2 : Nat × Nat => r1.2 < r2.1)
      (mergeRuns G (outRuns band tr.samples)) :=
    chain_wf_pairwise _ hm.1 hm.2
  constructor
  · exact List.Pairwise.sublist (List.filter_sublist _) hpw
  · intro r hr
    exact hm.2 r (List.mem_filter.mp hr).1

/-- **C5**: for every Trace and every event kind (the kind — hypo,
hyper, or extended-hypo — is the out-of-band predicate together with
its minimum duration `D` and gap tolerance `G`): the emitted events are
ordered by start time, no two events of the same kind overlap (each
event ends strictly before the next one starts), every emitted event
has duration at least the configured minimum, an all-missing Trace
produces zero events, and a Trace entirely within the target band
(every present value tests in-band) produces zero events. -/
theorem c5_event_detector_invariants (band : ℚ → Bool) (D G : Nat) (tr : Trace) :
    List.Pairwise (fun e1 e2 : Nat × Nat => e1.1 < e2.1) (detectEvents band D G tr) ∧
    List.Pairwise (fun e1 e2 : Nat × Nat => e1.2 < e2.1) (detectEvents band D G tr) ∧
    (∀ e ∈ detectEvents band D G tr, D ≤ dur e) ∧
    ((∀ s ∈ tr.samples, s.2 = none) → detectEvents band D G tr = []) ∧
    ((∀ s ∈ tr.samples, ∀ v, s.2 = some v → band v = false) →
      detectEvents band D G tr = []) := by
  obtain ⟨hpw, hwf⟩ := detectEvents_pairwise_wf band D G tr
  refine ⟨?_, hpw, ?_, ?_, ?_⟩
  · refine List.Pairwise.imp_of_mem ?_ hpw
    intro e1 e2 h1 _ hr
    exact lt_of_le_of_lt (hwf e1 h1) hr
  · intro e he
    have := (List.mem_filter.mp he).2
    simpa using this
  · intro h
    unfold detectEvents outRuns
    rw [outRunsAux_nil_of_missing band tr.samples h]
    rfl
  · intro h
    unfold detectEvents outRuns
    rw [outRunsAux_nil_of_inband band tr.samples h]
    rfl

theorem c5_event_detector_witness :
    detectEvents (fun v => v < 70) 15 15 ⟨[(0, none), (5, none)], by decide⟩ = [] ∧
    detectEvents (fun v => v < 70) 15 15 ⟨[(0, some 100), (5, some 101)], by decide⟩ = [] :=
  ⟨(c5_event_detector_invariants (fun v => v < 70) 15 15
      ⟨[(0, none), (5, none)], by decide⟩).2.2.2.1 (by decide),
   (c5_event_detector_invariants (fun v => v < 70) 15 15
      ⟨[(0, some 100), (5, some 101)], by decide⟩).2.2.2.2 (by decide)⟩

/-! ## C3: the Paired-Series Comparator is symmetric -/

/-- The timestamps carried by a trace. -/
def keys (tr : Trace) : List Nat := tr.samples.map Prod.fst

/-- The pair of values retained at timestamp `t` when aligning `a`
against `b`, if both are present there. -/
def pairF (a b : Trace) (t : Nat) : Option (ℚ × ℚ) :=
  match pval a t, pval b t with
  | some v, some w => some (v, w)
  | _, _ => none

theorem keys_nodup (tr : Trace) : (keys tr).Nodup := by
  have h := sorted_pairwise tr
  have : List.Pairwise (fun x y : Nat => x < y) (keys tr) :=
    List.pairwise_map.mpr h
  exact List.Pairwise.imp (fun hxy => Nat.ne_of_lt hxy) this

theorem filterMap_congr_mem {α β : Type} {l : List α} {f g : α → Option β}
    (h : ∀ x ∈ l, f x = g x) : l.filterMap f = l.filterMap g := by
  induction l with
  | nil => rfl
  | cons x xs ih =>
    rw [List.filterMap_cons, List.filterMap_cons, h x (by simp),
      ih (fun y hy => h y (by simp [hy]))]

theorem validPairs_eq_keys (a b : Trace) :
    validPairs a b = (keys a).filterMap (pairF a b) := by
  unfold keys validPairs
  rw [List.filterMap_map]
  apply filterMap_congr_mem
  intro s hs
  have hmem : (s.1, s.2) ∈ a.samples := by
    cases s
    exact hs
  have hpa : pval a s.1 = s.2 := pval_eq a hmem
  show (match s.2, pval b s.1 with
    | some v, some w => some (v, w)
    | _, _ => none) = pairF a b s.1
  rw [pairF, hpa]

theorem pval_none_of_not_mem_keys {tr : Trace} {t : Nat}
    (h : t ∉ keys tr) : pval tr t = none := by
  rcases hw : pval tr t with _ | w
  · rfl
  · exact absurd (List.mem_map.mpr ⟨(t, some w), pval_some_mem hw, rfl⟩) h

theorem filterMap_map_sum {α : Type} (h : α → Option (ℚ × ℚ)) (f : ℚ × ℚ → ℚ) :
    ∀ (l : List α),
      (((l.filterMap h).map f).sum) = (l.map (fun t => ((h t).map f).getD 0)).sum := by
  intro l
  induction l with
  | nil => rfl
  | cons x xs ih =>
    rw [List.filterMap_cons]
    cases hx : h x with
    | none => simp [hx, ih]
    | some p => simp [hx, ih]

theorem filterMap_length_sum {α β : Type} (h : α → Option β) :
    ∀ (l : List α),
      (l.filterMap h).length = (l.map (fun t => if (h t).isSome then 1 else 0)).sum := by
  intro l
  induction l with
  | nil => rfl
  | cons x xs ih =>
    rw [List.filterMap_cons]
    cases hx : h x with
    | none => simp [hx, ih]
    | some p => simp [hx, ih, Nat.add_comm]

theorem pairF_sq_symm (a b : Trace) (t : Nat) :
    ((pairF a b t).map (fun p => (p.1 - p.2) ^ 2)).getD 0 =
      ((pairF b a t).map (fun p => (p.1 - p.2) ^ 2)).getD 0 := by
  unfold pairF
  rcases pval a t with _ | v <;> rcases pval b t with _ | w <;> simp
  ring

theorem pairF_isSome_symm (a b : Trace) (t : Nat) :
    (if (pairF a b t).isSome then 1 else 0) =
      (if (pairF b a t).isSome then (1 : Nat) else 0) := by
  unfold pairF
  rcases pval a t with _ | v <;> rcases pval b t with _ | w <;> simp

theorem sum_over_keys_inter (a b : Trace) (f : Nat → ℚ)
    (hvanish : ∀ t, pval b t = none → f t = 0) :
    ((keys a).map f).sum =
      ∑ t ∈ (keys a).toFinset ∩ (keys b).toFinset, f t := by
  rw [← List.sum_toFinset f (keys_nodup a)]
  refine (Finset.sum_subset Finset.inter_subset_left ?_).symm
  intro t _ htn
  by_cases hb : t ∈ (keys b).toFinset
  · exact absurd (Finset.mem_inter.mpr ⟨‹t ∈ (keys a).toFinset›, hb⟩) htn
  · exact hvanish t (pval_none_of_not_mem_keys (fun hm => hb (List.mem_toFinset.mpr hm)))

theorem sum_over_keys_inter_nat (a b : Trace) (f : Nat → Nat)
    (hvanish : ∀ t, pval b t = none → f t = 0) :
    ((keys a).map f).sum =
      ∑ t ∈ (keys a).toFinset ∩ (keys b).toFinset, f t := by
  rw [← List.sum_toFinset f (keys_nodup a)]
  refine (Finset.sum_subset Finset.inter_subset_left ?_).symm
  intro t _ htn
  by_cases hb : t ∈ (keys b).toFinset
  · exact absurd (Finset.mem_inter.mpr ⟨‹t ∈ (keys a).toFinset›, hb⟩) htn
  · exact hvanish t (pval_none_of_not_mem_keys (fun hm => hb (List.mem_toFinset.mpr hm)))

theorem validPairs_sum_symm (a b : Trace) :
    ((validPairs a b).map (fun p => (p.1 - p.2) ^ 2)).sum =
      ((validPairs b a).map (fun p => (p.1 - p.2) ^ 2)).sum := by
  rw [validPairs_eq_keys a b, validPairs_eq_keys b a,
    filterMap_map_sum (pairF a b) _ (keys a),
    filterMap_map_sum (pairF b a) _ (keys b)]
  have hva : ∀ t, pval b t = none →
      ((pairF a b t).map (fun p => (p.1 - p.2) ^ 2)).getD 0 = 0 := by
    intro t ht
    unfold pairF
    rw [ht]
    rcases pval a t with _ | v <;> simp
  have hvb : ∀ t, pval a t = none →
      ((pairF b a t).map (fun p => (p.1 - p.2) ^ 2)).getD 0 = 0 := by
    intro t ht
    unfold pairF
    rw [ht]
    rcases pval b t with _ | v <;> simp
  rw [sum_over_keys_inter a b _ hva, sum_over_keys_inter b a _ hvb,
    Finset.inter_comm]
  exact Finset.sum_congr rfl (fun t _ => pairF_sq_symm a b t)

theorem validPairs_length_symm (a b : Trace) :
    (validPairs a b).length = (validPairs b a).length := by
  rw [validPairs_eq_keys a b, validPairs_eq_keys b a,
    filterMap_length_sum (pairF a b) (keys a),
    filterMap_length_sum (pairF b a) (keys b)]
  have hva : ∀ t, pval b t = none →
      (if (pairF a b t).isSome then 1 else 0) = 0 := by
    intro t ht
    unfold pairF
    rw [ht]
    rcases pval a t with _ | v <;> simp
  have hvb : ∀ t, pval a t = none →
      (if (pairF b a t).isSome then 1 else 0) = 0 := by
    intro t ht
    unfold pairF
    rw [ht]
    rcases pval b t with _ | v <;> simp
  rw [sum_over_keys_inter_nat a b _ hva, sum_over_keys_inter_nat b a _ hvb,
    Finset.inter_comm]
  exact Finset.sum_congr rfl (fun t _ => pairF_isSome_symm a b t)

/-- **C3**: for every pair of Traces, the Paired-Series Comparator is
symmetric — swapping reference and candidate does not change the
result, including the case where both directions are undefined.
(Stated on the squared statistic `g_rmse_sq`; applying the square root
to both sides preserves the equality.) -/
theorem c3_comparator_symmetric (a b : Trace) :
    g_rmse_sq a b = g_rmse_sq b a := by
  have hlen := validPairs_length_symm a b
  have hsum := validPairs_sum_symm a b
  simp only [g_rmse_sq]
  rw [hlen, hsum]

/-! ## C9 and C10: the orchestrator -/

/-- **C9**: for every input data, glycemic target and interpretation
of the metric collaborators, running `Agata.analyze_glucose_profile`
leaves the instance's `data` and `glycemic_target` attributes
unchanged.  The statement language of the embedded body can assign
those attributes (`Stmt.setData` / `Stmt.setTarget`), so this is a
fact about the body `analyzeBody`, which only creates and fills the
local `results` dictionary.  The components themselves are pure
functions of their arguments in this embedding (the theorem holds for
every interpretation `I1`, `I2`), so no component mutates the input
Trace or any process-wide state. -/
theorem c9_analyze_preserves_state (I1 : String → Trace → PyVal)
    (I2 : String → Trace → String → PyVal) (self : AgataState) :
    (analyze_glucose_profile I1 I2 self).self = self := rfl

/-- **C10**: for every input and every interpretation of the metric
collaborators, `Agata.analyze_glucose_profile` returns a freshly
constructed dictionary (built up from the empty dictionary by the
body) whose top-level keys are exactly `variability`,
`time_in_ranges`, `risk`, `glycemic_transformation`, `events` and
`data_quality`, in source order, each mapped to a dictionary — the
`variability` group included, although the method's own docstring
omits it from the listed result keys. -/
theorem c10_result_structure (I1 : String → Trace → PyVal)
    (I2 : String → Trace → String → PyVal) (self : AgataState) :
    (analyze_glucose_profile I1 I2 self).results.map Prod.fst =
      ["variability", "time_in_ranges", "risk", "glycemic_transformation",
        "events", "data_quality"] ∧
    (analyze_glucose_profile I1 I2 self).results.all (fun p => p.2.isDict) = true := by
  constructor <;>
    simp [analyze_glucose_profile, runStmts, analyzeBody, stepStmt, evalCall,
      setGroup, PyVal.isDict]

end PyAgata
